import Mathlib

/-!
Verification of the MD_CirQueue circular FIFO queue library.

The queue stores fixed-size items in a contiguous buffer addressed circularly.
We model the storage at slot granularity: `itmData` is a list of `itmQty`
slots, each holding one item (an item is a fixed-size byte block in the C++
source; one `memcpy` of `itmSize` bytes corresponds to reading or writing one
slot).  The bookkeeping fields `_itmCount`, `_idxPut`, `_idxTake` are
`uint8_t` in the source, so their increments are taken modulo 256.
-/

set_option autoImplicit false

namespace MDCirQueue

variable {α : Type}

/-- State of an `MD_CirQueue` object (fields of the C++ class). -/
structure MD_CirQueue (α : Type) where
  /-- `_itmQty` : number of items allowed in the queue (uint8_t). -/
  itmQty : Nat
  /-- `_itmData` : the allocated buffer, one entry per slot. -/
  itmData : List α
  /-- `_itmCount` : number of items currently in the queue (uint8_t). -/
  itmCount : Nat
  /-- `_idxPut` : array index where the next push will occur (uint8_t). -/
  idxPut : Nat
  /-- `_idxTake` : array index where the next pop will occur (uint8_t). -/
  idxTake : Nat
  /-- `_overwrite` : when true, overwrite oldest object if push() and isFull(). -/
  overwrite : Bool
deriving DecidableEq

/-- The constructor `MD_CirQueue(itmQty, itmSize)`: allocates `itmQty` slots
(`malloc` leaves them uninitialized, modeled by `default`) and calls
`clear()`, so `_itmCount = _idxPut = _idxTake = 0`; `_overwrite` starts
false. -/
def mkQueue [Inhabited α] (itmQty : Nat) : MD_CirQueue α :=
  { itmQty := itmQty
    itmData := List.replicate itmQty default
    itmCount := 0
    idxPut := 0
    idxTake := 0
    overwrite := false }

/-- `uint16_t size = sizeof(uint8_t) * _itmQty * _itmSize;` — the byte count
passed to `malloc`, computed in 16-bit arithmetic. -/
def allocSize (itmQty itmSize : Nat) : Nat :=
  1 * itmQty % 65536 * itmSize % 65536

/-- `isEmpty()` : `return (_itmCount == 0);` -/
def isEmpty (q : MD_CirQueue α) : Bool :=
  q.itmCount == 0

/-- `isFull()` : `return (_itmCount != 0 && _itmCount == _itmQty);` -/
def isFull (q : MD_CirQueue α) : Bool :=
  q.itmCount != 0 && q.itmCount == q.itmQty

/-- `clear()` : `_idxPut = _idxTake = _itmCount = 0;` -/
def clear (q : MD_CirQueue α) : MD_CirQueue α :=
  { q with idxPut := 0, idxTake := 0, itmCount := 0 }

/-- `setFullOverwrite(b)` : `_overwrite = b;` -/
def setFullOverwrite (q : MD_CirQueue α) (b : Bool) : MD_CirQueue α :=
  { q with overwrite := b }

/-- `pop(itm)` : if empty return NULL; else copy slot `_idxTake` to the
caller's buffer, `_idxTake++` (uint8_t), `_itmCount--`, wrap `_idxTake` to 0
when it reaches `_itmQty`, return the buffer.  The returned `Option α` is the
returned pointer (`none` = NULL, `some v` = pointer to the copied item `v`);
the second component is the object state after the call. -/
def pop [Inhabited α] (q : MD_CirQueue α) : Option α × MD_CirQueue α :=
  if isEmpty q then (none, q)
  else
    (some (q.itmData.getD q.idxTake default),
      { q with
          itmCount := q.itmCount - 1
          idxTake :=
            if (q.idxTake + 1) % 256 = q.itmQty then 0 else (q.idxTake + 1) % 256 })

/-- The unconditional tail of `push(itm)`: `memcpy` the item into slot
`_idxPut`, `_idxPut++` (uint8_t), `_itmCount++` (uint8_t), wrap `_idxPut` to
0 when it reaches `_itmQty`, return true. -/
def pushInsert (q : MD_CirQueue α) (itm : α) : Bool × MD_CirQueue α :=
  (true,
    { q with
        itmData := q.itmData.set q.idxPut itm
        itmCount := (q.itmCount + 1) % 256
        idxPut :=
          if (q.idxPut + 1) % 256 = q.itmQty then 0 else (q.idxPut + 1) % 256 })

/-- `push(itm)` : if full, either return false (`_overwrite == false`) or
first evict the oldest item by `pop(_itmData + _idxTake * _itmSize)` — a pop
whose destination buffer is the slot being popped, so the stored bytes are
unchanged while `_idxTake` advances and `_itmCount` drops — then fall through
to the normal insert. -/
def push [Inhabited α] (q : MD_CirQueue α) (itm : α) : Bool × MD_CirQueue α :=
  if isFull q then
    if q.overwrite then pushInsert (pop q).2 itm
    else (false, q)
  else pushInsert q itm

/-- `peek(itm)` : like `pop` but mutates nothing; copies slot `_idxTake` to
the caller's buffer and returns it, or NULL when empty. -/
def peek [Inhabited α] (q : MD_CirQueue α) : Option α × MD_CirQueue α :=
  if isEmpty q then (none, q)
  else (some (q.itmData.getD q.idxTake default), q)

/-- Push each item of `xs` in order; collect the boolean results and the
final state. -/
def pushAll [Inhabited α] (q : MD_CirQueue α) : List α → List Bool × MD_CirQueue α
  | [] => ([], q)
  | x :: xs =>
    ((push q x).1 :: (pushAll (push q x).2 xs).1, (pushAll (push q x).2 xs).2)

/-- Pop `n` times in sequence; collect the returned values and the final
state. -/
def popN [Inhabited α] : Nat → MD_CirQueue α → List (Option α) × MD_CirQueue α
  | 0, q => ([], q)
  | n + 1, q =>
    ((pop q).1 :: (popN n (pop q).2).1, (popN n (pop q).2).2)

/-- Index arithmetic of the source: an index that has just been incremented
is wrapped back to 0 when it reaches `_itmQty`. -/
def wrapIdx (C n : Nat) : Nat :=
  if n = C then 0 else n

/-- Write the items of `xs` into consecutive slots starting at `j` (the
slot writes performed by a run of successful pushes). -/
def writeSeq : List α → Nat → List α → List α
  | ds, _, [] => ds
  | ds, j, x :: xs => writeSeq (ds.set j x) (j + 1) xs

/-- The values read by `m` consecutive pops that start at slot `t`, with the
read index wrapping from `C - 1` back to 0. -/
def readSeq [Inhabited α] (ds : List α) (C : Nat) : Nat → Nat → List α
  | _, 0 => []
  | t, m + 1 => ds.getD t default :: readSeq ds C (if t + 1 = C then 0 else t + 1) m

/-- The take index after `m` consecutive pops that start at slot `t`. -/
def advN (C : Nat) : Nat → Nat → Nat
  | t, 0 => t
  | t, m + 1 => advN C (if t + 1 = C then 0 else t + 1) m

/-- An operation in a push/pop sequence. -/
inductive Op (α : Type) where
  | push (x : α)
  | pop

/-- Run a sequence of operations; return the final state, the number of
pushes that returned true, and the number of pops that returned a value. -/
def runOps [Inhabited α] (q : MD_CirQueue α) : List (Op α) → MD_CirQueue α × Nat × Nat
  | [] => (q, 0, 0)
  | Op.push x :: ops =>
    ((runOps (push q x).2 ops).1,
     (if (push q x).1 then 1 else 0) + (runOps (push q x).2 ops).2.1,
     (runOps (push q x).2 ops).2.2)
  | Op.pop :: ops =>
    ((runOps (pop q).2 ops).1,
     (runOps (pop q).2 ops).2.1,
     (if (pop q).1.isSome then 1 else 0) + (runOps (pop q).2 ops).2.2)

/-- The state invariant: the count never exceeds the capacity and both
indices are valid slot indices. -/
def Inv (q : MD_CirQueue α) : Prop :=
  q.itmCount ≤ q.itmQty ∧ q.idxPut < q.itmQty ∧ q.idxTake < q.itmQty

instance (q : MD_CirQueue α) : Decidable (Inv q) := by
  unfold Inv; infer_instance

/-! ### Characterization lemmas for the individual operations -/

theorem pop_empty [Inhabited α] (q : MD_CirQueue α) (h : q.itmCount = 0) :
    pop q = (none, q) := by
  simp [pop, isEmpty, h]

theorem pop_nonempty [Inhabited α] (q : MD_CirQueue α)
    (hc : q.itmCount ≠ 0) (ht : q.idxTake < q.itmQty) (h255 : q.itmQty ≤ 255) :
    pop q = (some (q.itmData.getD q.idxTake default),
      { q with itmCount := q.itmCount - 1,
               idxTake := (q.idxTake + 1) % q.itmQty }) := by
  have h1 : (q.idxTake + 1) % 256 = q.idxTake + 1 :=
    Nat.mod_eq_of_lt (by omega)
  simp only [pop, isEmpty, beq_iff_eq, if_neg hc, h1]
  by_cases h2 : q.idxTake + 1 = q.itmQty
  · simp [h2, Nat.mod_self]
  · have h3 : q.idxTake + 1 < q.itmQty := by omega
    simp [h2, Nat.mod_eq_of_lt h3]

theorem push_not_full [Inhabited α] (q : MD_CirQueue α) (x : α)
    (h : isFull q = false) : push q x = pushInsert q x := by
  simp [push, h]

theorem push_full_reject [Inhabited α] (q : MD_CirQueue α) (x : α)
    (h : isFull q = true) (ho : q.overwrite = false) : push q x = (false, q) := by
  simp [push, h, ho]

theorem push_full_overwrite [Inhabited α] (q : MD_CirQueue α) (x : α)
    (h : isFull q = true) (ho : q.overwrite = true) :
    push q x = pushInsert (pop q).2 x := by
  simp [push, h, ho]

theorem isFull_eq_false_iff (q : MD_CirQueue α) :
    isFull q = false ↔ q.itmCount = 0 ∨ q.itmCount ≠ q.itmQty := by
  simp only [isFull, Bool.and_eq_false_iff, bne_eq_false_iff_eq, beq_eq_false_iff_ne,
    ne_eq]

theorem isEmpty_eq_true_iff (q : MD_CirQueue α) :
    isEmpty q = true ↔ q.itmCount = 0 := by
  simp [isEmpty]

/-! ### Filling a queue that has room -/

theorem pushAll_fill [Inhabited α] (C t : Nat) (b : Bool) (hC : C ≤ 255)
    (xs : List α) :
    ∀ (j : Nat) (ds : List α), j + xs.length ≤ C →
      pushAll ⟨C, ds, j, wrapIdx C j, t, b⟩ xs =
        (List.replicate xs.length true,
         ⟨C, writeSeq ds j xs, j + xs.length, wrapIdx C (j + xs.length), t, b⟩) := by
  induction xs with
  | nil => intro j ds _; simp [pushAll, writeSeq]
  | cons x xs ih =>
    intro j ds h
    have hj : j < C := by
      simp only [List.length_cons] at h; omega
    have hw : wrapIdx C j = j := if_neg (Nat.ne_of_lt hj)
    have hfull : isFull (⟨C, ds, j, wrapIdx C j, t, b⟩ : MD_CirQueue α) = false :=
      (isFull_eq_false_iff _).2 (Or.inr (Nat.ne_of_lt hj))
    have hmod : (j + 1) % 256 = j + 1 := Nat.mod_eq_of_lt (by omega)
    have hrec := ih (j + 1) (ds.set j x) (by simp only [List.length_cons] at h; omega)
    rw [pushAll, push_not_full _ _ hfull]
    simp only [pushInsert, hw, hmod]
    rw [show (if j + 1 = C then 0 else j + 1) = wrapIdx C (j + 1) from rfl]
    rw [hrec]
    simp only [List.length_cons, writeSeq]
    rw [show j + 1 + xs.length = j + (xs.length + 1) from by omega,
      List.replicate_succ]

/-- The slot writes of a run of pushes that stays within the buffer replace
the written range and touch nothing else. -/
theorem writeSeq_eq_take_append_drop :
    ∀ (xs : List α) (ds : List α) (j : Nat), j + xs.length ≤ ds.length →
      writeSeq ds j xs = ds.take j ++ xs ++ ds.drop (j + xs.length) := by
  intro xs
  induction xs with
  | nil => intro ds j h; simp [writeSeq]
  | cons x xs ih =>
    intro ds j h
    simp only [List.length_cons] at h
    have hj : j < ds.length := by omega
    have hlt : (ds.take j).length = j := by
      rw [List.length_take]; omega
    rw [writeSeq, ih (ds.set j x) (j + 1) (by simp only [List.length_set]; omega)]
    rw [List.set_eq_take_cons_drop _ hj]
    have hts : (ds.take j ++ x :: ds.drop (j + 1)).take (j + 1) = ds.take j ++ [x] := by
      rw [List.take_append_eq_append_take, hlt,
        List.take_of_length_le (by omega),
        show j + 1 - j = 1 from by omega,
        List.take_succ_cons, List.take_zero]
    have hds : (ds.take j ++ x :: ds.drop (j + 1)).drop (j + 1 + xs.length) =
        ds.drop (j + (xs.length + 1)) := by
      rw [List.drop_append_eq_append_drop, hlt,
        List.drop_eq_nil_of_le (by omega),
        show j + 1 + xs.length - j = xs.length + 1 from by omega,
        List.drop_succ_cons, List.drop_drop,
        show j + 1 + xs.length = j + (xs.length + 1) from by omega]
      simp
    rw [hts, hds]
    simp [List.append_assoc]

/-- Draining a queue whose count is `m`: the `m` pops all succeed, return
the slots starting at the take index (wrapping at the capacity), and leave
the buffer contents and put index untouched with a zero count. -/
theorem popN_drain [Inhabited α] (C p : Nat) (b : Bool) (ds : List α)
    (hC : 1 ≤ C) (hC' : C ≤ 255) :
    ∀ (m t : Nat), t < C →
      popN m ⟨C, ds, m, p, t, b⟩ =
        ((readSeq ds C t m).map some, ⟨C, ds, 0, p, advN C t m, b⟩) := by
  intro m
  induction m with
  | zero => intro t _; simp [popN, readSeq, advN]
  | succ m ih =>
    intro t ht
    have hmod : (t + 1) % 256 = t + 1 := Nat.mod_eq_of_lt (by omega)
    have hpop : pop (⟨C, ds, m + 1, p, t, b⟩ : MD_CirQueue α) =
        (some (ds.getD t default),
         ⟨C, ds, m, p, if t + 1 = C then 0 else t + 1, b⟩) := by
      simp [pop, isEmpty, hmod]
    have ht' : (if t + 1 = C then 0 else t + 1) < C := by
      by_cases h : t + 1 = C
      · simpa [h] using hC
      · simp only [h, if_false]; omega
    simp only [popN, hpop, ih _ ht', readSeq, advN, List.map_cons]

/-- The values read by `m ≤ C` wrapping pops starting at slot `t` are the
first `m` entries of the buffer rotated left by `t`. -/
theorem readSeq_eq_rotate [Inhabited α] (ds : List α) (C : Nat)
    (hlen : ds.length = C) :
    ∀ (m t : Nat), t < C → m ≤ C →
      readSeq ds C t m = (ds.drop t ++ ds.take t).take m := by
  intro m
  induction m with
  | zero => intro t _ _; simp [readSeq]
  | succ m ih =>
    intro t ht hm
    have htl : t < ds.length := by omega
    have hget : ds.getD t default = ds[t] := by
      rw [List.getD_eq_getElem?_getD, List.getElem?_eq_getElem htl]
      rfl
    by_cases hw : t + 1 = C
    · have hdrop : ds.drop t = [ds[t]] := by
        rw [List.drop_eq_getElem_cons htl, List.drop_eq_nil_of_le (by omega)]
      rw [readSeq, if_pos hw, ih 0 (by omega) (by omega), hget, hdrop]
      simp only [List.drop_zero, List.take_zero, List.append_nil, List.cons_append,
        List.nil_append, List.take_succ_cons]
      rw [List.take_take, Nat.min_eq_left (by omega)]
    · have ht1 : t + 1 < C := by omega
      rw [readSeq, if_neg hw, ih (t + 1) ht1 (by omega), hget,
        List.drop_eq_getElem_cons htl]
      simp only [List.cons_append, List.take_succ_cons]
      congr 1
      rw [List.take_append_eq_append_take, List.take_append_eq_append_take]
      congr 1
      have hL : (ds.drop (t + 1)).length = C - (t + 1) := by
        rw [List.length_drop, hlen]
      rw [hL, List.take_take, List.take_take,
        Nat.min_eq_left (by omega), Nat.min_eq_left (by omega)]

theorem pushAll_append [Inhabited α] (q : MD_CirQueue α) (xs ys : List α) :
    pushAll q (xs ++ ys) =
      ((pushAll q xs).1 ++ (pushAll (pushAll q xs).2 ys).1,
       (pushAll (pushAll q xs).2 ys).2) := by
  induction xs generalizing q with
  | nil => simp [pushAll]
  | cons x xs ih => simp [pushAll, ih]

theorem wrapIdx_zero (C : Nat) : wrapIdx C 0 = 0 :=
  ite_self 0

theorem wrapIdx_self (C : Nat) : wrapIdx C C = 0 :=
  if_pos rfl

/-- Filling a fresh queue of capacity `C` with exactly `C` items: all pushes
succeed and the buffer holds exactly those items in slot order. -/
theorem pushAll_fresh_exact (C : Nat) (b : Bool) (hC' : C ≤ 255) (xs : List Nat)
    (hlen : xs.length = C) :
    pushAll (⟨C, List.replicate C 0, 0, 0, 0, b⟩ : MD_CirQueue Nat) xs =
      (List.replicate C true, ⟨C, xs, C, 0, 0, b⟩) := by
  have h := pushAll_fill C 0 b hC' xs 0 (List.replicate C 0)
    (by simp [hlen])
  rw [wrapIdx_zero] at h
  simp only [Nat.zero_add, hlen, wrapIdx_self] at h
  rw [h, writeSeq_eq_take_append_drop xs (List.replicate C 0) 0
    (by simp [hlen]), hlen]
  simp

/-! ### Claim theorems -/

/-- C1: With overwrite disabled (the default) and capacity `1 ≤ C ≤ 255`
(the capacity parameter is a `uint8_t`), pushing `C + 1` items into a fresh
queue yields `true` for the first `C` pushes and `false` for the last push;
the failing push leaves the entire state (count, put index, take index and
stored slots) unchanged; popping `C` times afterwards returns exactly the
first `C` pushed items in push order, after which the queue reports
empty. -/
theorem C1_reject_semantics (C : Nat) (items : List Nat)
    (hC : 1 ≤ C) (hC' : C ≤ 255) (hlen : items.length = C + 1) :
    (pushAll (mkQueue C : MD_CirQueue Nat) items).1 =
        List.replicate C true ++ [false] ∧
    (pushAll (mkQueue C : MD_CirQueue Nat) items).2 =
        (pushAll (mkQueue C : MD_CirQueue Nat) (items.take C)).2 ∧
    (popN C (pushAll (mkQueue C : MD_CirQueue Nat) items).2).1 =
        (items.take C).map some ∧
    isEmpty (popN C (pushAll (mkQueue C : MD_CirQueue Nat) items).2).2 = true := by
  have hCl : C < items.length := by omega
  have hlenF : (items.take C).length = C := by
    rw [List.length_take]; omega
  have hmk : (mkQueue C : MD_CirQueue Nat) = ⟨C, List.replicate C 0, 0, 0, 0, false⟩ :=
    rfl
  have hsplit : items = items.take C ++ [items[C]] := by
    nth_rewrite 1 [← List.take_length items]
    rw [hlen, List.take_succ, List.getElem?_eq_getElem hCl]
    rfl
  have hfill := pushAll_fresh_exact C false hC' (items.take C) hlenF
  have hfullS : isFull (⟨C, items.take C, C, 0, 0, false⟩ : MD_CirQueue Nat) = true := by
    have hne : C ≠ 0 := by omega
    simp [isFull, hne]
  have hall : pushAll (mkQueue C : MD_CirQueue Nat) items =
      (List.replicate C true ++ [false], ⟨C, items.take C, C, 0, 0, false⟩) := by
    conv_lhs => rw [hsplit]
    rw [pushAll_append, hmk, hfill]
    simp [pushAll, push_full_reject _ _ hfullS rfl]
  have hdrain := popN_drain C 0 false (items.take C) hC hC' C 0 (by omega)
  have hread : readSeq (items.take C) C 0 C = items.take C := by
    rw [readSeq_eq_rotate _ _ hlenF C 0 (by omega) (Nat.le_refl C)]
    simp only [List.drop_zero, List.take_zero, List.append_nil]
    rw [List.take_take, Nat.min_self]
  refine ⟨?_, ?_, ?_, ?_⟩
  · rw [hall]
  · rw [hall, hmk, hfill]
  · rw [hall]
    simp only [hdrain, hread]
  · rw [hall]
    simp only [hdrain]
    simp [isEmpty]

/-- Witness for C1 at `C = 2`, `items = [10, 20, 30]`. -/
theorem C1_reject_semantics_witness :
    (1 ≤ 2 ∧ 2 ≤ 255 ∧ ([10, 20, 30] : List Nat).length = 2 + 1) ∧
    ((pushAll (mkQueue 2 : MD_CirQueue Nat) [10, 20, 30]).1 =
        List.replicate 2 true ++ [false] ∧
    (pushAll (mkQueue 2 : MD_CirQueue Nat) [10, 20, 30]).2 =
        (pushAll (mkQueue 2 : MD_CirQueue Nat) ([10, 20, 30].take 2)).2 ∧
    (popN 2 (pushAll (mkQueue 2 : MD_CirQueue Nat) [10, 20, 30]).2).1 =
        ([10, 20, 30].take 2).map some ∧
    isEmpty (popN 2 (pushAll (mkQueue 2 : MD_CirQueue Nat) [10, 20, 30]).2).2 = true) :=
  ⟨⟨by decide, by decide, by decide⟩,
   C1_reject_semantics 2 [10, 20, 30] (by decide) (by decide) (by decide)⟩

/-- C2: With overwrite enabled and capacity `1 ≤ C ≤ 255`, pushing `C + 1`
items into a fresh queue makes every push return true; draining by `C` pops
then yields exactly the last `C` pushed items in push order (the first item
is discarded); and a push onto a full queue with overwrite enabled is the
eviction of the oldest item by the pop path followed by the normal
insert. -/
theorem C2_overwrite_semantics (C : Nat) (items : List Nat)
    (hC : 1 ≤ C) (hC' : C ≤ 255) (hlen : items.length = C + 1) :
    (pushAll (setFullOverwrite (mkQueue C : MD_CirQueue Nat) true) items).1 =
        List.replicate (C + 1) true ∧
    (popN C (pushAll (setFullOverwrite (mkQueue C : MD_CirQueue Nat) true) items).2).1 =
        (items.drop 1).map some ∧
    isEmpty (popN C (pushAll (setFullOverwrite (mkQueue C : MD_CirQueue Nat) true)
        items).2).2 = true ∧
    (∀ (q : MD_CirQueue Nat) (x : Nat), isFull q = true → q.overwrite = true →
        push q x = pushInsert (pop q).2 x) := by
  have hCl : C < items.length := by omega
  have hne : C ≠ 0 := by omega
  have hlenF : (items.take C).length = C := by
    rw [List.length_take]; omega
  have hmk : setFullOverwrite (mkQueue C : MD_CirQueue Nat) true =
      ⟨C, List.replicate C 0, 0, 0, 0, true⟩ := rfl
  have hsplit : items = items.take C ++ [items[C]] := by
    nth_rewrite 1 [← List.take_length items]
    rw [hlen, List.take_succ, List.getElem?_eq_getElem hCl]
    rfl
  have hfill := pushAll_fresh_exact C true hC' (items.take C) hlenF
  have hfullS : isFull (⟨C, items.take C, C, 0, 0, true⟩ : MD_CirQueue Nat) = true := by
    simp [isFull, hne]
  have hpop : pop (⟨C, items.take C, C, 0, 0, true⟩ : MD_CirQueue Nat) =
      (some ((items.take C).getD 0 0),
       ⟨C, items.take C, C - 1, 0, if 1 = C then 0 else 1, true⟩) := by
    norm_num [pop, isEmpty, hne]
  have hpush : push (⟨C, items.take C, C, 0, 0, true⟩ : MD_CirQueue Nat) items[C] =
      (true, ⟨C, (items.take C).set 0 items[C], C,
        if 1 = C then 0 else 1, if 1 = C then 0 else 1, true⟩) := by
    rw [push_full_overwrite _ _ hfullS rfl, hpop]
    norm_num [pushInsert]
    rw [show C - 1 + 1 = C from by omega, Nat.mod_eq_of_lt (by omega)]
  have hall : pushAll (setFullOverwrite (mkQueue C : MD_CirQueue Nat) true) items =
      (List.replicate (C + 1) true,
       ⟨C, (items.take C).set 0 items[C], C,
        if 1 = C then 0 else 1, if 1 = C then 0 else 1, true⟩) := by
    conv_lhs => rw [hsplit]
    rw [pushAll_append, hmk, hfill, List.replicate_succ']
    simp [pushAll, hpush]
  have hw : (if 1 = C then 0 else 1) < C := by
    by_cases h : 1 = C
    · simp only [h, if_pos]; omega
    · simp only [h, if_false]; omega
  have hlenS : ((items.take C).set 0 items[C]).length = C := by
    rw [List.length_set]; exact hlenF
  have hds : (items.take C).set 0 items[C] = items[C] :: (items.take C).drop 1 := by
    rw [List.set_eq_take_cons_drop _ (by omega), List.take_zero, List.nil_append]
  have hdrop1 : items.drop 1 = (items.take C).drop 1 ++ [items[C]] := by
    conv_lhs => rw [hsplit]
    rw [List.drop_append_eq_append_drop, hlenF,
      show 1 - C = 0 from by omega, List.drop_zero]
  have hdrain := popN_drain C (if 1 = C then 0 else 1) true
    ((items.take C).set 0 items[C]) hC hC' C (if 1 = C then 0 else 1) hw
  have hread : readSeq ((items.take C).set 0 items[C]) C (if 1 = C then 0 else 1) C =
      items.drop 1 := by
    have hlenR : (((items.take C).set 0 items[C]).drop (if 1 = C then 0 else 1) ++
        ((items.take C).set 0 items[C]).take (if 1 = C then 0 else 1)).length = C := by
      rw [List.length_append, List.length_drop, List.length_take, hlenS]
      omega
    rw [readSeq_eq_rotate _ _ hlenS C _ hw (Nat.le_refl C),
      List.take_of_length_le (le_of_eq hlenR), hds, hdrop1]
    by_cases h : 1 = C
    · subst h
      have hnilF : (items.take 1).drop 1 = [] :=
        List.drop_eq_nil_of_le (by simp)
      simp [hnilF]
    · simp [h]
  refine ⟨?_, ?_, ?_, (fun q x hq ho => push_full_overwrite q x hq ho)⟩
  · rw [hall]
  · rw [hall]
    simp only [hdrain, hread]
  · rw [hall]
    simp only [hdrain]
    simp [isEmpty]

/-- Witness for C2 at `C = 2`, `items = [10, 20, 30]`. -/
theorem C2_overwrite_semantics_witness :
    (1 ≤ 2 ∧ 2 ≤ 255 ∧ ([10, 20, 30] : List Nat).length = 2 + 1) ∧
    ((pushAll (setFullOverwrite (mkQueue 2 : MD_CirQueue Nat) true) [10, 20, 30]).1 =
        List.replicate (2 + 1) true ∧
    (popN 2 (pushAll (setFullOverwrite (mkQueue 2 : MD_CirQueue Nat) true)
        [10, 20, 30]).2).1 = ([10, 20, 30].drop 1).map some ∧
    isEmpty (popN 2 (pushAll (setFullOverwrite (mkQueue 2 : MD_CirQueue Nat) true)
        [10, 20, 30]).2).2 = true ∧
    (∀ (q : MD_CirQueue Nat) (x : Nat), isFull q = true → q.overwrite = true →
        push q x = pushInsert (pop q).2 x)) :=
  ⟨⟨by decide, by decide, by decide⟩,
   C2_overwrite_semantics 2 [10, 20, 30] (by decide) (by decide) (by decide)⟩

theorem isFull_eq_true_iff (q : MD_CirQueue α) :
    isFull q = true ↔ q.itmCount ≠ 0 ∧ q.itmCount = q.itmQty := by
  simp [isFull]

/-- The successful insert path, under the bounds that hold in every
reachable state with `1 ≤ itmQty ≤ 255`: the count goes up by one and the
put index advances modulo the capacity. -/
theorem pushInsert_state (q : MD_CirQueue α) (x : α)
    (hc : q.itmCount < q.itmQty) (hp : q.idxPut < q.itmQty) (h255 : q.itmQty ≤ 255) :
    pushInsert q x = (true,
      { q with itmData := q.itmData.set q.idxPut x,
               itmCount := q.itmCount + 1,
               idxPut := (q.idxPut + 1) % q.itmQty }) := by
  simp only [pushInsert]
  rw [Nat.mod_eq_of_lt (show q.itmCount + 1 < 256 by omega),
    Nat.mod_eq_of_lt (show q.idxPut + 1 < 256 by omega)]
  by_cases hp1 : q.idxPut + 1 = q.itmQty
  · simp [hp1, Nat.mod_self]
  · simp [hp1, Nat.mod_eq_of_lt (show q.idxPut + 1 < q.itmQty by omega)]

theorem pushInsert_inv (q : MD_CirQueue α) (x : α)
    (h : Inv q) (hc : q.itmCount < q.itmQty) (h255 : q.itmQty ≤ 255) :
    Inv (pushInsert q x).2 := by
  obtain ⟨h1, h2, h3⟩ := h
  rw [pushInsert_state q x hc h2 h255]
  exact ⟨show q.itmCount + 1 ≤ q.itmQty from by omega,
    show (q.idxPut + 1) % q.itmQty < q.itmQty from Nat.mod_lt _ (by omega),
    show q.idxTake < q.itmQty from h3⟩

theorem pop_inv [Inhabited α] (q : MD_CirQueue α) (h : Inv q) (h255 : q.itmQty ≤ 255) :
    Inv (pop q).2 := by
  obtain ⟨h1, h2, h3⟩ := h
  by_cases he : q.itmCount = 0
  · rw [pop_empty q he]; exact ⟨h1, h2, h3⟩
  · rw [pop_nonempty q he h3 h255]
    exact ⟨show q.itmCount - 1 ≤ q.itmQty from by omega,
      show q.idxPut < q.itmQty from h2,
      show (q.idxTake + 1) % q.itmQty < q.itmQty from Nat.mod_lt _ (by omega)⟩

theorem push_inv [Inhabited α] (q : MD_CirQueue α) (x : α)
    (h : Inv q) (h255 : q.itmQty ≤ 255) : Inv (push q x).2 := by
  by_cases hf : isFull q = true
  · obtain ⟨hc0, hcq⟩ := (isFull_eq_true_iff q).1 hf
    by_cases ho : q.overwrite = true
    · rw [push_full_overwrite q x hf ho, pop_nonempty q hc0 h.2.2 h255]
      have hq1 : 1 ≤ q.itmQty := by have := h.2.1; omega
      apply pushInsert_inv
      · exact ⟨show q.itmCount - 1 ≤ q.itmQty from by omega,
          show q.idxPut < q.itmQty from h.2.1,
          show (q.idxTake + 1) % q.itmQty < q.itmQty from Nat.mod_lt _ (by omega)⟩
      · show q.itmCount - 1 < q.itmQty
        omega
      · exact h255
    · rw [push_full_reject q x hf (by revert ho; cases q.overwrite <;> simp)]
      exact h
  · have hf' : isFull q = false := by revert hf; cases isFull q <;> simp
    rw [push_not_full q x hf']
    rcases (isFull_eq_false_iff q).1 hf' with h0 | hne
    · exact pushInsert_inv q x h (by have := h.2.1; omega) h255
    · exact pushInsert_inv q x h (by have := h.1; omega) h255

theorem peek_state [Inhabited α] (q : MD_CirQueue α) : (peek q).2 = q := by
  unfold peek
  split <;> rfl

theorem peek_fst_eq_pop_fst [Inhabited α] (q : MD_CirQueue α) :
    (peek q).1 = (pop q).1 := by
  unfold peek pop
  split <;> rfl

theorem runOps_cons_push [Inhabited α] (q : MD_CirQueue α) (x : α) (ops : List (Op α)) :
    runOps q (Op.push x :: ops) =
      ((runOps (push q x).2 ops).1,
       (if (push q x).1 then 1 else 0) + (runOps (push q x).2 ops).2.1,
       (runOps (push q x).2 ops).2.2) := rfl

theorem runOps_cons_pop [Inhabited α] (q : MD_CirQueue α) (ops : List (Op α)) :
    runOps q (Op.pop :: ops) =
      ((runOps (pop q).2 ops).1,
       (runOps (pop q).2 ops).2.1,
       (if (pop q).1.isSome then 1 else 0) + (runOps (pop q).2 ops).2.2) := rfl

/-- With overwrite disabled and a valid state, running any push/pop sequence
keeps the invariant and the capacity, and the final count equals the initial
count plus the number of successful pushes minus the number of successful
pops. -/
theorem runOps_count [Inhabited α] :
    ∀ (ops : List (Op α)) (q : MD_CirQueue α),
      q.overwrite = false → Inv q → q.itmQty ≤ 255 →
      ((runOps q ops).1.itmCount : Int) =
          (q.itmCount : Int) + (runOps q ops).2.1 - (runOps q ops).2.2 ∧
        Inv (runOps q ops).1 ∧
        (runOps q ops).1.itmQty = q.itmQty := by
  intro ops
  induction ops with
  | nil =>
    intro q ho hI h255
    exact ⟨by simp [runOps], hI, rfl⟩
  | cons op ops ih =>
    intro q ho hI h255
    cases op with
    | push x =>
      by_cases hf : isFull q = true
      · have hpush : push q x = (false, q) := push_full_reject q x hf ho
        obtain ⟨e1, e2, e3⟩ := ih q ho hI h255
        rw [runOps_cons_push, hpush]
        refine ⟨?_, e2, e3⟩
        simp only [Prod.fst, Prod.snd, if_false, Bool.false_eq_true]
        omega
      · have hf' : isFull q = false := by revert hf; cases isFull q <;> simp
        have hclt : q.itmCount < q.itmQty := by
          rcases (isFull_eq_false_iff q).1 hf' with h0 | hne
          · have := hI.2.1; omega
          · have := hI.1; omega
        have hpush : push q x = (true,
            { q with itmData := q.itmData.set q.idxPut x,
                     itmCount := q.itmCount + 1,
                     idxPut := (q.idxPut + 1) % q.itmQty }) := by
          rw [push_not_full q x hf', pushInsert_state q x hclt hI.2.1 h255]
        have hInv' : Inv ({ q with itmData := q.itmData.set q.idxPut x,
                                   itmCount := q.itmCount + 1,
                                   idxPut := (q.idxPut + 1) % q.itmQty } : MD_CirQueue α) :=
          ⟨show q.itmCount + 1 ≤ q.itmQty from by omega,
           show (q.idxPut + 1) % q.itmQty < q.itmQty from
             Nat.mod_lt _ (by have := hI.2.1; omega),
           show q.idxTake < q.itmQty from hI.2.2⟩
        obtain ⟨e1, e2, e3⟩ := ih ({ q with itmData := q.itmData.set q.idxPut x,
                                            itmCount := q.itmCount + 1,
                                            idxPut := (q.idxPut + 1) % q.itmQty })
          (show q.overwrite = false from ho) hInv' (show q.itmQty ≤ 255 from h255)
        rw [runOps_cons_push, hpush]
        refine ⟨?_, e2, e3⟩
        simp only [Prod.fst, Prod.snd, if_true] at e1 ⊢
        omega
    | pop =>
      by_cases he : q.itmCount = 0
      · have hp : pop q = (none, q) := pop_empty q he
        obtain ⟨e1, e2, e3⟩ := ih q ho hI h255
        rw [runOps_cons_pop, hp]
        refine ⟨?_, e2, e3⟩
        simp only [Prod.fst, Prod.snd, Option.isSome_none, if_false, Bool.false_eq_true]
        omega
      · have hp : pop q = (some (q.itmData.getD q.idxTake default),
            { q with itmCount := q.itmCount - 1,
                     idxTake := (q.idxTake + 1) % q.itmQty }) :=
          pop_nonempty q he hI.2.2 h255
        have hInv' : Inv ({ q with itmCount := q.itmCount - 1,
                                   idxTake := (q.idxTake + 1) % q.itmQty } : MD_CirQueue α) :=
          ⟨show q.itmCount - 1 ≤ q.itmQty from by have := hI.1; omega,
           show q.idxPut < q.itmQty from hI.2.1,
           show (q.idxTake + 1) % q.itmQty < q.itmQty from
             Nat.mod_lt _ (by have := hI.2.1; omega)⟩
        obtain ⟨e1, e2, e3⟩ := ih ({ q with itmCount := q.itmCount - 1,
                                            idxTake := (q.idxTake + 1) % q.itmQty })
          (show q.overwrite = false from ho) hInv' (show q.itmQty ≤ 255 from h255)
        rw [runOps_cons_pop, hp]
        refine ⟨?_, e2, e3⟩
        simp only [Prod.fst, Prod.snd, Option.isSome_some, if_true] at e1 ⊢
        omega


/-- C3 counterexample: for a queue with overwrite enabled (capacity 1, two
pushes), the final count (1) differs from successful pushes minus successful
pops (2 − 0): the overwrite push internally discards an item without a
caller-visible pop. -/
theorem C3_count_counterexample :
    (runOps (setFullOverwrite (mkQueue 1 : MD_CirQueue Nat) true)
        [Op.push 0, Op.push 1]).1.itmCount ≠
      (runOps (setFullOverwrite (mkQueue 1 : MD_CirQueue Nat) true)
        [Op.push 0, Op.push 1]).2.1 -
      (runOps (setFullOverwrite (mkQueue 1 : MD_CirQueue Nat) true)
        [Op.push 0, Op.push 1]).2.2 := by
  decide

/-- C3 (amended): for an initially empty queue with overwrite disabled (the
constructed default) and capacity `1 ≤ C ≤ 255`, after any push/pop sequence
the count equals the number of pushes that returned true minus the number of
pops that returned a value, and after every prefix of the sequence the count
is between 0 and `C`. -/
theorem C3_count_amended (C : Nat) (ops : List (Op Nat))
    (hC : 1 ≤ C) (hC' : C ≤ 255) :
    ((runOps (mkQueue C : MD_CirQueue Nat) ops).1.itmCount : Int) =
        ((runOps (mkQueue C : MD_CirQueue Nat) ops).2.1 : Int) -
        ((runOps (mkQueue C : MD_CirQueue Nat) ops).2.2 : Int) ∧
    (∀ pre suf : List (Op Nat), pre ++ suf = ops →
        (runOps (mkQueue C : MD_CirQueue Nat) pre).1.itmCount ≤ C) := by
  have hInv : Inv (mkQueue C : MD_CirQueue Nat) :=
    ⟨Nat.zero_le _, show 0 < C from hC, show 0 < C from hC⟩
  constructor
  · obtain ⟨e1, _, _⟩ := runOps_count ops (mkQueue C) rfl hInv
      (show C ≤ 255 from hC')
    rw [e1]
    show ((0 : Nat) : Int) + _ - _ = _
    simp
  · intro pre suf _
    obtain ⟨_, e2, e3⟩ := runOps_count pre (mkQueue C) rfl hInv
      (show C ≤ 255 from hC')
    have h1 := e2.1
    rw [e3] at h1
    exact h1

/-- Witness for the amended C3 at `C = 2` and a five-operation sequence. -/
theorem C3_count_amended_witness :
    (1 ≤ 2 ∧ 2 ≤ 255) ∧
    (((runOps (mkQueue 2 : MD_CirQueue Nat)
        [Op.push 5, Op.pop, Op.push 6, Op.push 7, Op.push 8]).1.itmCount : Int) =
        ((runOps (mkQueue 2 : MD_CirQueue Nat)
        [Op.push 5, Op.pop, Op.push 6, Op.push 7, Op.push 8]).2.1 : Int) -
        ((runOps (mkQueue 2 : MD_CirQueue Nat)
        [Op.push 5, Op.pop, Op.push 6, Op.push 7, Op.push 8]).2.2 : Int) ∧
    (∀ pre suf : List (Op Nat),
        pre ++ suf = [Op.push 5, Op.pop, Op.push 6, Op.push 7, Op.push 8] →
        (runOps (mkQueue 2 : MD_CirQueue Nat) pre).1.itmCount ≤ 2)) :=
  ⟨⟨by decide, by decide⟩,
   C3_count_amended 2 [Op.push 5, Op.pop, Op.push 6, Op.push 7, Op.push 8]
     (by decide) (by decide)⟩

/-- C4: the constructed state (any capacity `C ≥ 1`) satisfies the invariant
`count ≤ capacity ∧ putIndex < capacity ∧ takeIndex < capacity`, and every
state-modifying operation preserves it (for states with the uint8_t bound
`capacity ≤ 255`); `isEmpty` and `isFull` are pure predicates in the
embedding, so they cannot modify the state. -/
theorem C4_invariant_preservation (q : MD_CirQueue Nat) (x : Nat) (b : Bool)
    (C : Nat) (hq : Inv q) (h255 : q.itmQty ≤ 255) (hC : 1 ≤ C) :
    Inv (mkQueue C : MD_CirQueue Nat) ∧
    Inv (push q x).2 ∧ Inv (pop q).2 ∧ Inv (peek q).2 ∧
    Inv (clear q) ∧ Inv (setFullOverwrite q b) := by
  have hq1 : 1 ≤ q.itmQty := by have := hq.2.1; omega
  refine ⟨⟨Nat.zero_le _, hC, hC⟩, push_inv q x hq h255, pop_inv q hq h255,
    ?_, ?_, ?_⟩
  · rw [peek_state]; exact hq
  · exact ⟨Nat.zero_le _, show 0 < q.itmQty from hq1,
      show 0 < q.itmQty from hq1⟩
  · exact ⟨hq.1, hq.2.1, hq.2.2⟩

/-- Witness for C4 at a reachable two-slot state. -/
theorem C4_invariant_preservation_witness :
    (Inv (⟨2, [5, 0], 1, 1, 0, false⟩ : MD_CirQueue Nat) ∧
      (⟨2, [5, 0], 1, 1, 0, false⟩ : MD_CirQueue Nat).itmQty ≤ 255 ∧ 1 ≤ 3) ∧
    (Inv (mkQueue 3 : MD_CirQueue Nat) ∧
    Inv (push (⟨2, [5, 0], 1, 1, 0, false⟩ : MD_CirQueue Nat) 7).2 ∧
    Inv (pop (⟨2, [5, 0], 1, 1, 0, false⟩ : MD_CirQueue Nat)).2 ∧
    Inv (peek (⟨2, [5, 0], 1, 1, 0, false⟩ : MD_CirQueue Nat)).2 ∧
    Inv (clear (⟨2, [5, 0], 1, 1, 0, false⟩ : MD_CirQueue Nat)) ∧
    Inv (setFullOverwrite (⟨2, [5, 0], 1, 1, 0, false⟩ : MD_CirQueue Nat) true)) :=
  ⟨⟨by decide, by decide, by decide⟩,
   C4_invariant_preservation ⟨2, [5, 0], 1, 1, 0, false⟩ 7 true 3
     (by decide) (by decide) (by decide)⟩

/-- C5: on an empty queue `pop` returns the no-value indicator (NULL) and
changes nothing; on a non-empty queue (in a state with a valid take index
and the uint8_t capacity bound) it returns the slot at the take index,
advances the take index modulo the capacity, decrements the count, and
leaves the stored slots and the put index unchanged. -/
theorem C5_pop_contract (q : MD_CirQueue Nat)
    (ht : q.idxTake < q.itmQty) (h255 : q.itmQty ≤ 255) :
    (q.itmCount = 0 → pop q = (none, q)) ∧
    (q.itmCount ≠ 0 → pop q =
      (some (q.itmData.getD q.idxTake default),
       { q with itmCount := q.itmCount - 1,
                idxTake := (q.idxTake + 1) % q.itmQty })) :=
  ⟨pop_empty q, fun hc => pop_nonempty q hc ht h255⟩

/-- Witness for C5 at a reachable one-item state. -/
theorem C5_pop_contract_witness :
    ((⟨2, [5, 9], 1, 1, 0, false⟩ : MD_CirQueue Nat).idxTake <
        (⟨2, [5, 9], 1, 1, 0, false⟩ : MD_CirQueue Nat).itmQty ∧
      (⟨2, [5, 9], 1, 1, 0, false⟩ : MD_CirQueue Nat).itmQty ≤ 255) ∧
    (((⟨2, [5, 9], 1, 1, 0, false⟩ : MD_CirQueue Nat).itmCount = 0 →
        pop (⟨2, [5, 9], 1, 1, 0, false⟩ : MD_CirQueue Nat) =
          (none, ⟨2, [5, 9], 1, 1, 0, false⟩)) ∧
    ((⟨2, [5, 9], 1, 1, 0, false⟩ : MD_CirQueue Nat).itmCount ≠ 0 →
        pop (⟨2, [5, 9], 1, 1, 0, false⟩ : MD_CirQueue Nat) =
          (some ((⟨2, [5, 9], 1, 1, 0, false⟩ : MD_CirQueue Nat).itmData.getD
              (⟨2, [5, 9], 1, 1, 0, false⟩ : MD_CirQueue Nat).idxTake default),
           { (⟨2, [5, 9], 1, 1, 0, false⟩ : MD_CirQueue Nat) with
               itmCount := (⟨2, [5, 9], 1, 1, 0, false⟩ : MD_CirQueue Nat).itmCount - 1,
               idxTake := ((⟨2, [5, 9], 1, 1, 0, false⟩ : MD_CirQueue Nat).idxTake + 1) %
                 (⟨2, [5, 9], 1, 1, 0, false⟩ : MD_CirQueue Nat).itmQty }))) :=
  ⟨⟨by decide, by decide⟩,
   C5_pop_contract ⟨2, [5, 9], 1, 1, 0, false⟩ (by decide) (by decide)⟩

/-- C6: `peek` returns exactly what `pop` would return (the oldest item, or
the no-value indicator when empty) and never changes the state, so repeated
peeks agree. -/
theorem C6_peek_contract (q : MD_CirQueue Nat) :
    (peek q).1 = (pop q).1 ∧ (peek q).2 = q ∧
    (peek (peek q).2).1 = (peek q).1 := by
  refine ⟨peek_fst_eq_pop_fst q, peek_state q, ?_⟩
  rw [peek_state q]

/-- C7 counterexample: pushing onto a non-empty queue and then popping
returns the oldest item, not the item just pushed (here the queue already
holds 5; pushing 7 and popping yields 5). -/
theorem C7_roundtrip_counterexample :
    (pop (push (push (mkQueue 2 : MD_CirQueue Nat) 5).2 7).2).1 ≠ some 7 := by
  decide

/-- C7 (amended): for every queue state that is empty (count 0, with the
put and take indices equal and in bounds — as in every reachable empty
state), pushing `x` and then immediately popping returns `x`. -/
theorem C7_roundtrip_amended (q : MD_CirQueue Nat) (x : Nat)
    (hc : q.itmCount = 0) (hpt : q.idxPut = q.idxTake)
    (ht : q.idxTake < q.itmData.length) :
    (pop (push q x).2).1 = some x := by
  have hfull : isFull q = false := (isFull_eq_false_iff q).2 (Or.inl hc)
  rw [push_not_full q x hfull]
  simp only [pushInsert]
  simp [pop, isEmpty, hc, hpt]
  rw [List.getElem?_set_self ht]
  rfl

/-- Witness for the amended C7 on a fresh capacity-3 queue. -/
theorem C7_roundtrip_amended_witness :
    ((mkQueue 3 : MD_CirQueue Nat).itmCount = 0 ∧
      (mkQueue 3 : MD_CirQueue Nat).idxPut = (mkQueue 3 : MD_CirQueue Nat).idxTake ∧
      (mkQueue 3 : MD_CirQueue Nat).idxTake < (mkQueue 3 : MD_CirQueue Nat).itmData.length) ∧
    (pop (push (mkQueue 3 : MD_CirQueue Nat) 42).2).1 = some 42 :=
  ⟨⟨by decide, by decide, by decide⟩,
   C7_roundtrip_amended (mkQueue 3) 42 (by decide) (by decide) (by decide)⟩

/-- C8: `isEmpty` is true iff the count is 0; `isFull` is true iff the count
equals the capacity and the capacity is nonzero (a zero-capacity queue never
reports full); hence for capacity at least 1 they are never both true. -/
theorem C8_predicates (q : MD_CirQueue Nat) :
    (isEmpty q = true ↔ q.itmCount = 0) ∧
    (isFull q = true ↔ q.itmCount = q.itmQty ∧ q.itmQty ≠ 0) ∧
    (1 ≤ q.itmQty → ¬ (isEmpty q = true ∧ isFull q = true)) := by
  refine ⟨isEmpty_eq_true_iff q, ?_, ?_⟩
  · rw [isFull_eq_true_iff]
    omega
  · intro _ h2
    obtain ⟨he, hf⟩ := h2
    rw [isEmpty_eq_true_iff] at he
    obtain ⟨h3, _⟩ := (isFull_eq_true_iff q).1 hf
    exact h3 he

/-- Witness for C8 at a one-item capacity-2 state. -/
theorem C8_predicates_witness :
    (isEmpty (⟨2, [5, 0], 1, 1, 0, false⟩ : MD_CirQueue Nat) = true ↔
        (⟨2, [5, 0], 1, 1, 0, false⟩ : MD_CirQueue Nat).itmCount = 0) ∧
    (isFull (⟨2, [5, 0], 1, 1, 0, false⟩ : MD_CirQueue Nat) = true ↔
        (⟨2, [5, 0], 1, 1, 0, false⟩ : MD_CirQueue Nat).itmCount =
          (⟨2, [5, 0], 1, 1, 0, false⟩ : MD_CirQueue Nat).itmQty ∧
        (⟨2, [5, 0], 1, 1, 0, false⟩ : MD_CirQueue Nat).itmQty ≠ 0) ∧
    (1 ≤ (⟨2, [5, 0], 1, 1, 0, false⟩ : MD_CirQueue Nat).itmQty →
      ¬ (isEmpty (⟨2, [5, 0], 1, 1, 0, false⟩ : MD_CirQueue Nat) = true ∧
         isFull (⟨2, [5, 0], 1, 1, 0, false⟩ : MD_CirQueue Nat) = true)) :=
  C8_predicates ⟨2, [5, 0], 1, 1, 0, false⟩

/-- C9: on a queue of capacity 0, `isFull` is always false (its
`count != 0` conjunct fails at count 0 and its `count == capacity` conjunct
fails otherwise), so `push` never rejects: it takes the insert path, returns
true, and increments the count (as a uint8_t), violating
`count ≤ capacity` — already after one push on a fresh zero-capacity
queue the count is 1 > 0. -/
theorem C9_zero_capacity_push (q : MD_CirQueue Nat) (x : Nat)
    (hq : q.itmQty = 0) :
    isFull q = false ∧
    (push q x).1 = true ∧
    (push q x).2.itmCount = (q.itmCount + 1) % 256 ∧
    (push (mkQueue 0 : MD_CirQueue Nat) x).2.itmCount = 1 ∧
    ¬ ((push (mkQueue 0 : MD_CirQueue Nat) x).2.itmCount ≤
        (push (mkQueue 0 : MD_CirQueue Nat) x).2.itmQty) := by
  have hfull : isFull q = false := by
    rw [isFull_eq_false_iff]
    omega
  have hfull0 : isFull (mkQueue 0 : MD_CirQueue Nat) = false := by
    rw [isFull_eq_false_iff]
    exact Or.inl rfl
  refine ⟨hfull, ?_, ?_, ?_, ?_⟩
  · rw [push_not_full q x hfull]
    rfl
  · rw [push_not_full q x hfull]
    rfl
  · rw [push_not_full _ x hfull0]
    rfl
  · rw [push_not_full _ x hfull0]
    show ¬ ((0 + 1) % 256 ≤ 0)
    omega

/-- Witness for C9 at the fresh zero-capacity queue. -/
theorem C9_zero_capacity_push_witness :
    (mkQueue 0 : MD_CirQueue Nat).itmQty = 0 ∧
    (isFull (mkQueue 0 : MD_CirQueue Nat) = false ∧
    (push (mkQueue 0 : MD_CirQueue Nat) 7).1 = true ∧
    (push (mkQueue 0 : MD_CirQueue Nat) 7).2.itmCount =
      ((mkQueue 0 : MD_CirQueue Nat).itmCount + 1) % 256 ∧
    (push (mkQueue 0 : MD_CirQueue Nat) 7).2.itmCount = 1 ∧
    ¬ ((push (mkQueue 0 : MD_CirQueue Nat) 7).2.itmCount ≤
        (push (mkQueue 0 : MD_CirQueue Nat) 7).2.itmQty)) :=
  ⟨by decide, C9_zero_capacity_push (mkQueue 0) 7 (by decide)⟩

/-- C10: the constructor computes the allocation size in 16-bit arithmetic,
so the allocated byte count is `(itmQty * itmSize) mod 2^16`; at
`itmQty = 2`, `itmSize = 40000` this is 14464, strictly smaller than the
mathematical product 80000. -/
theorem C10_alloc_size_truncation :
    (∀ itmQty itmSize : Nat,
        allocSize itmQty itmSize = itmQty * itmSize % 65536) ∧
    allocSize 2 40000 = 14464 ∧ 14464 < 2 * 40000 := by
  refine ⟨?_, by decide, by decide⟩
  intro a b
  simp [allocSize, Nat.mod_mul_mod, Nat.one_mul]
